import Mathlib

/-!
Shallow embedding of src/testconcurrent.py.

Text is modelled as `List Char` (Python `len` counts code points, matching
`List.length` on unicode scalar values).  Python `str.strip()` is modelled by
`pyStrip` over the set of characters Python treats as str whitespace.
Records (pandas rows converted by `to_dict`) are ordered field maps, modelled
as association lists `List (String × PyValue)`; the Python dict-literal merge
`{**row_dict, ...}` is `pyDictMerge`.
-/

/-- Python str whitespace (the characters `str.strip()` removes). -/
def isPySpace (c : Char) : Bool :=
  c = ' ' || c = '\t' || c = '\n' || c = '\r' ||
  c = '\x0b' || c = '\x0c' ||
  c = '\x1c' || c = '\x1d' || c = '\x1e' || c = '\x1f' ||
  c = '\u0085' || c = '\u00a0' || c = '\u1680' ||
  c = '\u2000' || c = '\u2001' || c = '\u2002' || c = '\u2003' ||
  c = '\u2004' || c = '\u2005' || c = '\u2006' || c = '\u2007' ||
  c = '\u2008' || c = '\u2009' || c = '\u200a' ||
  c = '\u2028' || c = '\u2029' || c = '\u202f' || c = '\u205f' ||
  c = '\u3000'

/-- Python `s.strip()`: drop whitespace from both ends. -/
def pyStrip (l : List Char) : List Char :=
  ((l.dropWhile isPySpace).reverse.dropWhile isPySpace).reverse

/-- `sentence_separators = ['。', '！', '？', '；', '…']` in `split_text_to_sentences`. -/
def sentenceSeparators : List Char := ['。', '！', '？', '；', '…']

/-- `phrase_separators = ['，', '、', '：', '；']` in `split_text_to_sentences`. -/
def phraseSeparators : List Char := ['，', '、', '：', '；']

/-- The sentence-splitting loop of `split_text_to_sentences` (lines 14-22):
accumulate characters into `cur`; at a sentence separator, emit the stripped
buffer if it strips to nonempty and reset it; finally flush a nonempty-stripping
trailing buffer. -/
def splitSentencesAux : List Char → List Char → List (List Char)
  | [], cur => if pyStrip cur = [] then [] else [pyStrip cur]
  | c :: rest, cur =>
    if c ∈ sentenceSeparators then
      if pyStrip (cur ++ [c]) = [] then splitSentencesAux rest (cur ++ [c])
      else pyStrip (cur ++ [c]) :: splitSentencesAux rest []
    else splitSentencesAux rest (cur ++ [c])

/-- The phrase-splitting loop (lines 31-39): at a phrase separator, the stripped
buffer is emitted only when it is nonempty and of length at least `minL`
(otherwise the buffer keeps accumulating); the trailing buffer is flushed under
the same condition. -/
def splitPhrasesAux (minL : Nat) : List Char → List Char → List (List Char)
  | [], cur =>
    if pyStrip cur ≠ [] ∧ minL ≤ (pyStrip cur).length then [pyStrip cur] else []
  | c :: rest, cur =>
    if c ∈ phraseSeparators then
      if pyStrip (cur ++ [c]) ≠ [] ∧ minL ≤ (pyStrip (cur ++ [c])).length then
        pyStrip (cur ++ [c]) :: splitPhrasesAux minL rest []
      else splitPhrasesAux minL rest (cur ++ [c])
    else splitPhrasesAux minL rest (cur ++ [c])

/-- The greedy-merge loop (lines 41-50): append the next part while the total
stays within `maxL`; otherwise emit the accumulator when it is nonempty and of
length at least `minL`, and restart the accumulator at the current part; flush
the accumulator at the end under the same condition. -/
def mergeAux (minL maxL : Nat) : List (List Char) → List Char → List (List Char)
  | [], temp => if temp ≠ [] ∧ minL ≤ temp.length then [temp] else []
  | p :: rest, temp =>
    if (temp ++ p).length ≤ maxL then
      mergeAux minL maxL rest (if temp ≠ [] then temp ++ p else p)
    else
      if temp ≠ [] ∧ minL ≤ temp.length then
        temp :: mergeAux minL maxL rest p
      else
        mergeAux minL maxL rest p

/-- The fixed-width fallback slicing loop (lines 53-56), written with explicit
fuel: the Python `range(0, len, maxL)` steps in windows of `maxL` characters.
Fuel `s.length` more than covers all iterations when `maxL ≥ 1`; the Python
code would raise `ValueError` on step `maxL = 0`, a case that is unreachable
(this whole branch is dead code, see the theorem for C3). -/
def sliceWindowsGo (minL maxL : Nat) : Nat → List Char → List (List Char)
  | 0, _ => []
  | _ + 1, [] => []
  | fuel + 1, s =>
    (if minL ≤ (s.take maxL).length then [s.take maxL] else []) ++
      sliceWindowsGo minL maxL fuel (s.drop maxL)

/-- Fallback slicing of one sentence into `maxL`-wide windows, keeping only
windows of length at least `minL`. -/
def sliceWindows (minL maxL : Nat) (s : List Char) : List (List Char) :=
  sliceWindowsGo minL maxL s.length s

/-- The per-sentence body of `split_text_to_sentences` (lines 25-57): drop
sentences shorter than `minL`; emit sentences of length up to `maxL` as-is;
otherwise run phrase split, greedy merge, and — when the merge emitted nothing
and the sentence is still long enough — fallback slicing. -/
def processSentence (minL maxL : Nat) (sentence : List Char) : List (List Char) :=
  if sentence.length < minL then []
  else if sentence.length ≤ maxL then [sentence]
  else if mergeAux minL maxL (splitPhrasesAux minL sentence []) [] = []
      ∧ minL ≤ sentence.length then
    sliceWindows minL maxL sentence
  else mergeAux minL maxL (splitPhrasesAux minL sentence []) []

/-- `split_text_to_sentences(text, min_length, max_length)` (lines 11-58). -/
def split_text_to_sentences (text : List Char) (minL maxL : Nat) : List (List Char) :=
  ((splitSentencesAux text []).map (processSentence minL maxL)).flatten

/-- A value stored in a record: a string, an int, or some non-string payload
(pandas rows may carry arbitrary values). -/
inductive PyValue where
  | str (s : List Char)
  | int (n : Int)
  | other (tag : Nat)
deriving DecidableEq

/-- Python `str.find`: the smallest index where the needle occurs in the
haystack, or `-1` when it does not occur. -/
def pyFind (hay needle : List Char) : Int :=
  match (List.range (hay.length + 1)).find?
      (fun i => List.isPrefixOf needle (hay.drop i)) with
  | some i => (i : Int)
  | none => -1

/-- Normalisation of one Python slice index for a sequence of length `len`:
negative indices count from the end and are clamped at 0; positive indices are
clamped at `len`. -/
def pySliceIdx (len : Nat) (i : Int) : Nat :=
  if i < 0 then (max (i + len) 0).toNat else min i.toNat len

/-- Python sequence slice `s[start:stop]`. -/
def pySlice (s : List Char) (start stop : Int) : List Char :=
  (s.take (pySliceIdx s.length stop)).drop (pySliceIdx s.length start)

/-- The metadata fields written by `process_single_row` (lines 73-83): `'text'`
is replaced by the fragment, and the bookkeeping fields are added, with
`fragment_start` the first-occurrence position of the fragment in the original
text and `fragment_end = fragment_start + len(fragment)`. -/
def fragMeta (idx i : Nat) (original fragment : List Char) :
    List (String × PyValue) :=
  [("text", PyValue.str fragment),
   ("original_index", PyValue.int idx),
   ("fragment_index", PyValue.int i),
   ("original_text_length", PyValue.int original.length),
   ("fragment_length", PyValue.int fragment.length),
   ("source_type", PyValue.str ("sentence_fragment".toList)),
   ("fragment_start", PyValue.int (pyFind original fragment)),
   ("fragment_end", PyValue.int (pyFind original fragment + fragment.length))]

/-- The field names written by `fragMeta`. -/
def fragMetaKeys : List String :=
  ["text", "original_index", "fragment_index", "original_text_length",
   "fragment_length", "source_type", "fragment_start", "fragment_end"]

/-- Python dict-literal merge `\x7b**base, **updates\x7d` on ordered field maps:
keys of `base` keep their position, with values overridden by `updates`;
keys of `updates` not present in `base` are appended in order. -/
def pyDictMerge (base updates : List (String × PyValue)) :
    List (String × PyValue) :=
  base.map (fun p => (p.1, (List.lookup p.1 updates).getD p.2)) ++
    updates.filter (fun p => ! (base.map Prod.fst).contains p.1)

/-- `process_single_row` (lines 62-85): read the `'text'` field with default
`''`; return `[]` when it is not a string or strips to fewer than `minL`
characters; otherwise segment it and build one output record per fragment. -/
def process_single_row (idx : Nat) (row : List (String × PyValue))
    (minL maxL : Nat) : List (List (String × PyValue)) :=
  match (List.lookup "text" row).getD (PyValue.str []) with
  | PyValue.str original =>
    if (pyStrip original).length < minL then []
    else
      (split_text_to_sentences original minL maxL).enum.map
        (fun p => pyDictMerge row (fragMeta idx p.1 original p.2))
  | _ => []

/-- `process_in_parallel` (lines 89-97), with the file I/O and progress display
stripped away: `executor.map` yields each task's result in submission order,
and the collection loop concatenates them (skipping empty results changes
nothing about the concatenation). -/
def process_in_parallel (rows : List (List (String × PyValue)))
    (minL maxL : Nat) : List (List (String × PyValue)) :=
  (rows.enum.map (fun p => process_single_row p.1 p.2 minL maxL)).flatten

/-- The result-collection loop of `process_in_parallel` over fallible task
outcomes: iterating `executor.map` re-raises the exception of the first failed
task when its position is reached, so the whole batch aborts at the first
error; only when every task succeeded is the in-order concatenation returned.
The source has no try/except around this loop. -/
def poolCollect {E α : Type} : List (Except E (List α)) → Except E (List α)
  | [] => Except.ok []
  | Except.error e :: _ => Except.error e
  | Except.ok r :: rest =>
    match poolCollect rest with
    | Except.error e => Except.error e
    | Except.ok rs => Except.ok (r ++ rs)

/-- `process_in_parallel` over a per-record worker that may raise: the faithful
embedding of lines 93-97 when a worker exception is possible. -/
def process_in_parallel_exc {E : Type}
    (worker : Nat × List (String × PyValue) → Except E (List (List (String × PyValue))))
    (rows : List (List (String × PyValue))) :
    Except E (List (List (String × PyValue))) :=
  poolCollect (rows.enum.map worker)

/-! ### Association-list (ordered dict) lemmas -/

/-- Looking a key up in the override-mapped base followed by a tail: the base
keeps the first hit (with its value overridden), otherwise the tail decides. -/
theorem lookup_map_override (k : String) (updates : List (String × PyValue))
    (base tail : List (String × PyValue)) :
    List.lookup k
        (base.map (fun p => (p.1, (List.lookup p.1 updates).getD p.2)) ++ tail)
      = match List.lookup k base with
        | some v => some ((List.lookup k updates).getD v)
        | none => List.lookup k tail := by
  induction base with
  | nil => simp [List.lookup]
  | cons a rest ih =>
    cases a with
    | mk k0 v0 =>
      simp only [List.map_cons, List.cons_append, List.lookup]
      cases hk : (k == k0) with
      | true =>
        have hkk : k = k0 := eq_of_beq hk
        subst hkk
        simp
      | false =>
        simpa using ih

/-- A key absent from the key list of an association list looks up to `none`. -/
theorem lookup_eq_none_of_keys (k : String) (l : List (String × PyValue))
    (h : k ∉ l.map Prod.fst) : List.lookup k l = none := by
  induction l with
  | nil => rfl
  | cons a rest ih =>
    cases a with
    | mk k0 v0 =>
      simp only [List.map_cons, List.mem_cons] at h
      push_neg at h
      have hk : (k == k0) = false := beq_eq_false_iff_ne.mpr h.1
      simp [List.lookup, hk, ih h.2]

/-- A key that looks up to `none` is not among the keys. -/
theorem keys_of_lookup_none (k : String) (l : List (String × PyValue))
    (h : List.lookup k l = none) : k ∉ l.map Prod.fst := by
  induction l with
  | nil => simp
  | cons a rest ih =>
    cases a with
    | mk k0 v0 =>
      cases hk : (k == k0) with
      | true => simp [List.lookup, hk] at h
      | false =>
        simp only [List.lookup, hk] at h
        simp only [List.map_cons, List.mem_cons]
        push_neg
        exact ⟨beq_eq_false_iff_ne.mp hk, ih h⟩

/-- Looking up a key survives filtering when every pair with that key is kept. -/
theorem lookup_filter_keep (k : String) (g : String × PyValue → Bool)
    (l : List (String × PyValue)) (hg : ∀ p ∈ l, p.1 = k → g p = true) :
    List.lookup k (l.filter g) = List.lookup k l := by
  induction l with
  | nil => rfl
  | cons a rest ih =>
    cases a with
    | mk k0 v0 =>
      have ihr := ih (fun p hp => hg p (List.mem_cons_of_mem _ hp))
      cases hk : (k == k0) with
      | true =>
        have hkeep : g (k0, v0) = true :=
          hg (k0, v0) (List.mem_cons_self _ _) (eq_of_beq hk).symm
        simp [List.filter_cons, hkeep, List.lookup, hk]
      | false =>
        by_cases hgp : g (k0, v0)
        · simp [List.filter_cons, hgp, List.lookup, hk, ihr]
        · simp only [Bool.not_eq_true] at hgp
          simp [List.filter_cons, hgp, List.lookup, hk, ihr]

/-- Filtering cannot make an absent key appear. -/
theorem lookup_filter_none (k : String) (g : String × PyValue → Bool)
    (l : List (String × PyValue)) (h : List.lookup k l = none) :
    List.lookup k (l.filter g) = none := by
  induction l with
  | nil => rfl
  | cons a rest ih =>
    cases a with
    | mk k0 v0 =>
      cases hk : (k == k0) with
      | true => simp [List.lookup, hk] at h
      | false =>
        simp only [List.lookup, hk] at h
        by_cases hgp : g (k0, v0)
        · simp [List.filter_cons, hgp, List.lookup, hk, ih h]
        · simp only [Bool.not_eq_true] at hgp
          simp [List.filter_cons, hgp, ih h]

/-- A key written by `updates` reads back its updated value after the merge. -/
theorem pyDictMerge_lookup_update (base updates : List (String × PyValue))
    (k : String) (v : PyValue) (hv : List.lookup k updates = some v) :
    List.lookup k (pyDictMerge base updates) = some v := by
  unfold pyDictMerge
  rw [lookup_map_override k updates base _]
  cases hb : List.lookup k base with
  | some v0 => simp [hv]
  | none =>
    rw [lookup_filter_keep]
    · exact hv
    · intro p hp hpk
      have hnm : p.1 ∉ base.map Prod.fst := by
        rw [hpk]; exact keys_of_lookup_none k base hb
      simpa using hnm

/-- A key not written by `updates` reads back its original value after the
merge. -/
theorem pyDictMerge_lookup_frame (base updates : List (String × PyValue))
    (k : String) (hk : List.lookup k updates = none) :
    List.lookup k (pyDictMerge base updates) = List.lookup k base := by
  unfold pyDictMerge
  rw [lookup_map_override k updates base _]
  cases hb : List.lookup k base with
  | some v0 => simp [hk]
  | none => simp [lookup_filter_none k _ updates hk]

/-- The second component of an element of `enumFrom` is an element of the
underlying list. -/
theorem snd_mem_of_mem_enumFrom {α : Type} (l : List α) :
    ∀ (n : Nat) (p : Nat × α), p ∈ List.enumFrom n l → p.2 ∈ l := by
  induction l with
  | nil => intro n p hp; simp [List.enumFrom] at hp
  | cons a t ih =>
    intro n p hp
    rw [List.enumFrom] at hp
    rcases List.mem_cons.mp hp with h | h
    · subst h; exact List.mem_cons_self _ _
    · exact List.mem_cons_of_mem _ (ih _ _ h)

/-! ### Lemmas about stripping and the segmentation loops -/

/-- Dropping a satisfied run twice is the same as dropping it once. -/
theorem dropWhile_dropWhile (p : Char → Bool) (l : List Char) :
    (l.dropWhile p).dropWhile p = l.dropWhile p := by
  induction l with
  | nil => simp
  | cons a l ih =>
    cases hpa : p a with
    | false => simp [List.dropWhile_cons, hpa]
    | true => simpa [List.dropWhile_cons, hpa] using ih

/-- A left-trimmed list stays left-trimmed after cutting off any suffix. -/
theorem dropWhile_of_prefix {p : Char → Bool} {m t u : List Char}
    (hu : u = m ++ t) (h : u.dropWhile p = u) : m.dropWhile p = m := by
  cases m with
  | nil => simp
  | cons a m2 =>
    cases hpa : p a with
    | false => simp [List.dropWhile_cons, hpa]
    | true =>
      exfalso
      have h2 : u.dropWhile p = (m2 ++ t).dropWhile p := by
        rw [hu]; simp [List.dropWhile_cons, hpa]
      rw [h] at h2
      have h3 : u.length = ((m2 ++ t).dropWhile p).length := congrArg List.length h2
      have h4 : ((m2 ++ t).dropWhile p).length ≤ (m2 ++ t).length :=
        (List.dropWhile_sublist p).length_le
      rw [hu] at h3
      simp only [List.length_append, List.length_cons] at h3 h4
      omega

/-- The result of `pyStrip` carries no leading whitespace. -/
theorem pyStrip_dropWhile (l : List Char) :
    (pyStrip l).dropWhile isPySpace = pyStrip l := by
  have h1 : (l.dropWhile isPySpace).reverse.takeWhile isPySpace ++
      (l.dropWhile isPySpace).reverse.dropWhile isPySpace
      = (l.dropWhile isPySpace).reverse :=
    List.takeWhile_append_dropWhile isPySpace _
  have h2 : l.dropWhile isPySpace
      = pyStrip l ++ ((l.dropWhile isPySpace).reverse.takeWhile isPySpace).reverse := by
    have h3 := congrArg List.reverse h1
    simp only [List.reverse_append, List.reverse_reverse] at h3
    exact h3.symm
  exact dropWhile_of_prefix h2 (dropWhile_dropWhile _ _)

/-- `pyStrip` is idempotent (Python `strip` of a stripped string). -/
theorem pyStrip_idem (l : List Char) : pyStrip (pyStrip l) = pyStrip l := by
  have h1 : pyStrip (pyStrip l)
      = (((pyStrip l).dropWhile isPySpace).reverse.dropWhile isPySpace).reverse := rfl
  rw [h1, pyStrip_dropWhile]
  have h2 : (pyStrip l).reverse
      = (l.dropWhile isPySpace).reverse.dropWhile isPySpace := by
    simp [pyStrip]
  rw [h2, dropWhile_dropWhile]
  rfl

/-- Every sentence emitted by the sentence-splitting loop is stripped. -/
theorem mem_splitSentencesAux_strip (cs : List Char) :
    ∀ (cur s : List Char), s ∈ splitSentencesAux cs cur → pyStrip s = s := by
  induction cs with
  | nil =>
    intro cur s hs
    unfold splitSentencesAux at hs
    split at hs
    · simp at hs
    · simp at hs; subst hs; exact pyStrip_idem cur
  | cons c rest ih =>
    intro cur s hs
    unfold splitSentencesAux at hs
    split at hs
    · split at hs
      · exact ih _ _ hs
      · rcases List.mem_cons.mp hs with h | h
        · subst h; exact pyStrip_idem _
        · exact ih _ _ h
    · exact ih _ _ hs

/-- Every phrase part emitted by the phrase-splitting loop is nonempty and of
length at least `minL`. -/
theorem mem_splitPhrasesAux (minL : Nat) (cs : List Char) :
    ∀ (cur p : List Char), p ∈ splitPhrasesAux minL cs cur →
      minL ≤ p.length ∧ p ≠ [] := by
  induction cs with
  | nil =>
    intro cur p hp
    unfold splitPhrasesAux at hp
    split at hp
    · rename_i hcond
      simp at hp; subst hp
      exact ⟨hcond.2, hcond.1⟩
    · simp at hp
  | cons c rest ih =>
    intro cur p hp
    unfold splitPhrasesAux at hp
    split at hp
    · split at hp
      · rename_i hcond
        rcases List.mem_cons.mp hp with h | h
        · subst h; exact ⟨hcond.2, hcond.1⟩
        · exact ih _ _ h
      · exact ih _ _ hp
    · exact ih _ _ hp

/-- When the phrase-splitting loop emits nothing, the whole remaining input
(continuing the open buffer) strips to something empty or shorter than
`minL`: with no cut ever made, the final flush must have failed. -/
theorem splitPhrasesAux_eq_nil (minL : Nat) (cs : List Char) :
    ∀ cur, splitPhrasesAux minL cs cur = [] →
      pyStrip (cur ++ cs) = [] ∨ (pyStrip (cur ++ cs)).length < minL := by
  induction cs with
  | nil =>
    intro cur h
    unfold splitPhrasesAux at h
    split at h
    · simp at h
    · rename_i hcond
      rw [not_and_or] at hcond
      rcases hcond with hc | hc
      · left; simpa using not_not.mp hc
      · right; simpa using Nat.lt_of_not_le (by simpa using hc)
  | cons c rest ih =>
    intro cur h
    unfold splitPhrasesAux at h
    split at h
    · split at h
      · simp at h
      · have h2 := ih (cur ++ [c]) h
        simpa [List.append_assoc] using h2
    · have h2 := ih (cur ++ [c]) h
      simpa [List.append_assoc] using h2

/-- Every fragment emitted by the greedy merge has length at least `minL`. -/
theorem mem_mergeAux_min (minL maxL : Nat) (parts : List (List Char)) :
    ∀ (temp f : List Char), f ∈ mergeAux minL maxL parts temp →
      minL ≤ f.length := by
  induction parts with
  | nil =>
    intro temp f hf
    unfold mergeAux at hf
    split at hf
    · rename_i hcond; simp at hf; subst hf; exact hcond.2
    · simp at hf
  | cons p rest ih =>
    intro temp f hf
    unfold mergeAux at hf
    split at hf
    · exact ih _ _ hf
    · split at hf
      · rename_i hcond
        rcases List.mem_cons.mp hf with h | h
        · subst h; exact hcond.2
        · exact ih _ _ h
      · exact ih _ _ hf

/-- When every phrase part fits in `maxL`, every fragment emitted by the greedy
merge fits in `maxL` as well. -/
theorem mem_mergeAux_max (minL maxL : Nat) (parts : List (List Char)) :
    ∀ (temp f : List Char), (∀ p ∈ parts, p.length ≤ maxL) →
      temp.length ≤ maxL → f ∈ mergeAux minL maxL parts temp →
      f.length ≤ maxL := by
  induction parts with
  | nil =>
    intro temp f _ htemp hf
    unfold mergeAux at hf
    split at hf
    · simp at hf; subst hf; exact htemp
    · simp at hf
  | cons p rest ih =>
    intro temp f hp htemp hf
    have hrest : ∀ q ∈ rest, q.length ≤ maxL :=
      fun q hq => hp q (List.mem_cons_of_mem _ hq)
    have hhead : p.length ≤ maxL := hp p (List.mem_cons_self _ _)
    unfold mergeAux at hf
    split at hf
    · rename_i hle
      refine ih _ _ hrest ?_ hf
      split
      · exact hle
      · calc p.length ≤ (temp ++ p).length := by simp
          _ ≤ maxL := hle
    · split at hf
      · rcases List.mem_cons.mp hf with h | h
        · subst h; exact htemp
        · exact ih _ _ hrest hhead h
      · exact ih _ _ hrest hhead hf

/-- The greedy merge over nonempty, `minL`-long parts emits at least one
fragment whenever there is at least one part (or a viable accumulator). -/
theorem mergeAux_ne_nil (minL maxL : Nat) (parts : List (List Char)) :
    ∀ temp, (∀ p ∈ parts, minL ≤ p.length ∧ p ≠ []) →
      (parts ≠ [] ∨ (temp ≠ [] ∧ minL ≤ temp.length)) →
      mergeAux minL maxL parts temp ≠ [] := by
  induction parts with
  | nil =>
    intro temp _ hne
    rcases hne with h | h
    · exact absurd rfl h
    · unfold mergeAux
      rw [if_pos ⟨h.1, h.2⟩]
      simp
  | cons p rest ih =>
    intro temp hp hne
    have hpp := hp p (List.mem_cons_self _ _)
    have hrest : ∀ q ∈ rest, minL ≤ q.length ∧ q ≠ [] :=
      fun q hq => hp q (List.mem_cons_of_mem _ hq)
    unfold mergeAux
    split
    · refine ih _ hrest (Or.inr ?_)
      split
      · constructor
        · simp [hpp.2]
        · calc minL ≤ p.length := hpp.1
            _ ≤ (temp ++ p).length := by simp
      · exact ⟨hpp.2, hpp.1⟩
    · split
      · simp
      · exact ih _ hrest (Or.inr ⟨hpp.2, hpp.1⟩)

/-- Every kept fallback window has length between `minL` and `maxL`. -/
theorem mem_sliceWindowsGo (minL maxL : Nat) (fuel : Nat) :
    ∀ (s f : List Char), f ∈ sliceWindowsGo minL maxL fuel s →
      minL ≤ f.length ∧ f.length ≤ maxL := by
  induction fuel with
  | zero => intro s f hf; simp [sliceWindowsGo] at hf
  | succ fuel ih =>
    intro s f hf
    cases s with
    | nil => simp [sliceWindowsGo] at hf
    | cons a t =>
      unfold sliceWindowsGo at hf
      rw [List.mem_append] at hf
      rcases hf with h | h
      · split at h
        · rename_i hc
          simp at h; subst h
          refine ⟨hc, ?_⟩
          exact List.length_take_le maxL (a :: t)
        · simp at h
      · exact ih _ _ h

/-- When `pyFind` succeeds, slicing the haystack from the found position for
the needle's length recovers the needle. -/
theorem pyFind_slice (hay needle : List Char) (h : 0 ≤ pyFind hay needle) :
    pySlice hay (pyFind hay needle) (pyFind hay needle + needle.length)
      = needle := by
  unfold pyFind at h ⊢
  cases hfind : (List.range (hay.length + 1)).find?
      (fun i => List.isPrefixOf needle (hay.drop i)) with
  | none => rw [hfind] at h; norm_num at h
  | some i =>
    change pySlice hay ((i : Int)) ((i : Int) + (needle.length : Int)) = needle
    have hp : List.isPrefixOf needle (hay.drop i) = true := by
      have := List.find?_some hfind
      simpa using this
    have hprefix : needle <+: hay.drop i := List.isPrefixOf_iff_prefix.mp hp
    have hi : i < hay.length + 1 :=
      List.mem_range.mp (List.mem_of_find?_eq_some hfind)
    rcases hprefix with ⟨t, ht⟩
    have hile : i ≤ hay.length := by omega
    have hlen2 : i + needle.length ≤ hay.length := by
      have h5 := congrArg List.length ht
      simp only [List.length_append, List.length_drop] at h5
      omega
    unfold pySlice pySliceIdx
    rw [if_neg (by omega), if_neg (by omega)]
    have hcast : ((i : Int) + (needle.length : Int)).toNat = i + needle.length := by
      omega
    rw [hcast]
    have hicast : ((i : Int)).toNat = i := Int.toNat_natCast i
    rw [hicast]
    rw [Nat.min_eq_left hlen2, Nat.min_eq_left hile]
    rw [← List.take_drop i needle.length hay, ← ht]
    exact List.take_left' rfl

/-! ### Claim theorems -/

/-- C1 (counterexample): with `min_length = 2 ≤ max_length = 5`, the text
consisting of eight `a`s followed by a phrase comma is one sentence of length
9 > 5; the phrase split flushes the whole sentence as a single part, and the
greedy merge emits it unchanged, so the Segmenter returns one fragment of
length 9 > max_length.  The fallback slicing path is not taken (its windows
all have length at most `max_length`), so this fragment is not covered by the
claim's exclusion, refuting the upper bound. -/
theorem c1_counterexample :
    split_text_to_sentences ("aaaaaaaa，".toList) 2 5 = ["aaaaaaaa，".toList] ∧
    ¬ (("aaaaaaaa，".toList).length ≤ 5) := by
  exact ⟨rfl, by decide⟩

/-- C1 (amended): with `min_length ≤ max_length`, every fragment returned by
the Segmenter has length at least `min_length`, unconditionally (every emission
path of the code guards the minimum); and, provided additionally that every
phrase part produced from each over-long sentence has length at most
`max_length`, every fragment (including all fallback windows — a too-short
last window is dropped) also has length at most `max_length`.  Without that
proviso the greedy merge can emit a single phrase part longer than
`max_length`, so only the upper bound fails. -/
theorem c1_amended (text : List Char) (minL maxL : Nat)
    (_hmm : minL ≤ maxL) :
    (∀ f ∈ split_text_to_sentences text minL maxL, minL ≤ f.length) ∧
    ((∀ s ∈ splitSentencesAux text [],
        ∀ p ∈ splitPhrasesAux minL s [], p.length ≤ maxL) →
      ∀ f ∈ split_text_to_sentences text minL maxL, f.length ≤ maxL) := by
  constructor
  · intro f hf
    unfold split_text_to_sentences at hf
    rw [List.mem_flatten] at hf
    rcases hf with ⟨l, hl, hfl⟩
    rw [List.mem_map] at hl
    rcases hl with ⟨s, hs, rfl⟩
    unfold processSentence at hfl
    split at hfl
    · simp at hfl
    · split at hfl
      · rename_i h1 h2
        simp at hfl; subst hfl
        omega
      · split at hfl
        · exact (mem_sliceWindowsGo minL maxL _ _ _ hfl).1
        · exact mem_mergeAux_min minL maxL _ _ _ hfl
  · intro hparts f hf
    unfold split_text_to_sentences at hf
    rw [List.mem_flatten] at hf
    rcases hf with ⟨l, hl, hfl⟩
    rw [List.mem_map] at hl
    rcases hl with ⟨s, hs, rfl⟩
    unfold processSentence at hfl
    split at hfl
    · simp at hfl
    · split at hfl
      · rename_i h1 h2
        simp at hfl; subst hfl
        exact h2
      · split at hfl
        · exact (mem_sliceWindowsGo minL maxL _ _ _ hfl).2
        · exact mem_mergeAux_max minL maxL _ _ _
            (fun p hp => hparts s hs p hp) (by simp) hfl

/-- C1 (witness). -/
theorem c1_witness :
    1 ≤ ("ab。".toList).length ∧ ("ab。".toList).length ≤ 10 :=
  ⟨(c1_amended ("ab。".toList) 1 10 (by decide)).1 ("ab。".toList) (by decide),
   (c1_amended ("ab。".toList) 1 10 (by decide)).2 (by decide)
     ("ab。".toList) (by decide)⟩

set_option maxRecDepth 8000 in
/-- C2 (counterexample): a single sentence of 400 `a`s with no phrase
delimiters, `min_length = 30`, `max_length = 250`: the Segmenter returns one
fragment of length 400, not two fragments of lengths 250 and 150 as the claim
(and the spec's Scenario C) states. -/
theorem c2_counterexample :
    (split_text_to_sentences (List.replicate 400 'a') 30 250).map List.length
      = [400] ∧
    (split_text_to_sentences (List.replicate 400 'a') 30 250).map List.length
      ≠ [250, 150] := by
  have e : (split_text_to_sentences (List.replicate 400 'a') 30 250).map
      List.length = [400] := by rfl
  exact ⟨e, by rw [e]; decide⟩

set_option maxRecDepth 8000 in
/-- C2 (amended): for the single 400-character sentence with no phrase
delimiters and `min_length = 30`, `max_length = 250`, the trailing flush of the
phrase split captures the whole sentence as one part (its length 400 is at
least `min_length`), the greedy merge emits that part unchanged, and the
fixed-width fallback slicing path is not taken: the Segmenter returns exactly
one fragment, the whole 400-character sentence. -/
theorem c2_amended :
    split_text_to_sentences (List.replicate 400 'a') 30 250
      = [List.replicate 400 'a'] := by
  rfl

/-- C3: whenever `min_length ≤ max_length`, every sentence produced by the
sentence split whose length exceeds `max_length` makes the phrase split emit at
least one part and the greedy merge emit at least one fragment, so the guard
of the fixed-width fallback branch never holds and the per-sentence result is
exactly the merged list. -/
theorem c3_fallback_unreachable (text s : List Char) (minL maxL : Nat)
    (hmm : minL ≤ maxL) (hs : s ∈ splitSentencesAux text [])
    (hlen : maxL < s.length) :
    mergeAux minL maxL (splitPhrasesAux minL s []) [] ≠ [] ∧
    processSentence minL maxL s
      = mergeAux minL maxL (splitPhrasesAux minL s []) [] := by
  have hstrip : pyStrip s = s := mem_splitSentencesAux_strip _ _ _ hs
  have hparts_ne : splitPhrasesAux minL s [] ≠ [] := by
    intro hnil
    have h2 := splitPhrasesAux_eq_nil minL s [] hnil
    rw [List.nil_append, hstrip] at h2
    rcases h2 with h | h
    · rw [h] at hlen; simp at hlen
    · omega
  have hmerge : mergeAux minL maxL (splitPhrasesAux minL s []) [] ≠ [] :=
    mergeAux_ne_nil minL maxL (splitPhrasesAux minL s []) []
      (fun p hp => mem_splitPhrasesAux minL s [] p hp) (Or.inl hparts_ne)
  refine ⟨hmerge, ?_⟩
  unfold processSentence
  rw [if_neg (by omega), if_neg (by omega), if_neg (fun hc => hmerge hc.1)]

/-- C3 (witness). -/
theorem c3_witness :
    mergeAux 2 3 (splitPhrasesAux 2 ("aaaaa".toList) []) [] ≠ [] ∧
    processSentence 2 3 ("aaaaa".toList)
      = mergeAux 2 3 (splitPhrasesAux 2 ("aaaaa".toList) []) [] :=
  c3_fallback_unreachable ("aaaaa".toList) ("aaaaa".toList) 2 3
    (by decide) (by decide) (by decide)

/-- C10: with `min_length ≤ max_length` (and `min_length ≥ 1` so that
`min_length - 1` makes sense), a text whose sentence split yields exactly one
sentence behaves boundary-inclusively: a sentence of length exactly
`max_length` yields exactly that sentence as the only fragment, and one of
length `min_length - 1` yields no fragments. -/
theorem c10_boundary (text s : List Char) (minL maxL : Nat)
    (hsplit : splitSentencesAux text [] = [s]) (hmm : minL ≤ maxL)
    (h1 : 1 ≤ minL) :
    (s.length = maxL → split_text_to_sentences text minL maxL = [s]) ∧
    (s.length = minL - 1 → split_text_to_sentences text minL maxL = []) := by
  have hone : split_text_to_sentences text minL maxL
      = processSentence minL maxL s := by
    unfold split_text_to_sentences
    rw [hsplit]
    simp
  constructor
  · intro hlen
    rw [hone]
    unfold processSentence
    rw [if_neg (by omega), if_pos (by omega)]
  · intro hlen
    rw [hone]
    unfold processSentence
    rw [if_pos (by omega)]

/-- C10 (witness). -/
theorem c10_witness :
    split_text_to_sentences ("abc".toList) 2 3 = ["abc".toList] :=
  (c10_boundary ("abc".toList) ("abc".toList) 2 3 (by decide) (by decide)
    (by decide)).1 (by decide)

/-- C4 (counterexample): with `min_length = 5 > max_length = 3` the pipeline
does not raise any configuration error: the code contains no validation of
`min_length`/`max_length` anywhere, and `process_single_row` reads the record
and fragments it normally, returning two fragment records (the greedy merge
emits each phrase part, of length 6 ≥ min_length, on overflow).  The claimed
fail-fast behaviour does not exist in the code. -/
theorem c4_counterexample :
    (process_single_row 0 [("text", PyValue.str ("aaaaa，bbbbb，".toList))]
      5 3).length = 2 := by
  rfl

/-- C4 (amended): no configuration validation exists; when
`min_length > max_length` is configured, no error is raised, records are read
and batch processing proceeds normally — here a one-record batch under
`min_length = 5 > max_length = 3` is processed into two fragment records, each
of fragment length 6 (at least `min_length`, above `max_length`). -/
theorem c4_amended :
    (process_in_parallel [[("text", PyValue.str ("aaaaa，bbbbb，".toList))]]
        5 3).map (fun r => List.lookup "fragment_length" r)
      = [some (PyValue.int 6), some (PyValue.int 6)] := by
  rfl

/-- Collecting `enumFrom`-indexed task results aborts with the error of the
single failing task whenever that task's index is in range. -/
theorem poolCollect_enumFrom_error {E : Type} (e : E)
    (good : Nat × List (String × PyValue) → List (List (String × PyValue)))
    (i : Nat) (rows : List (List (String × PyValue))) :
    ∀ n, n ≤ i → i < n + rows.length →
      poolCollect ((List.enumFrom n rows).map
        (fun x => if x.1 = i then Except.error e else Except.ok (good x)))
      = Except.error e := by
  induction rows with
  | nil => intro n h1 h2; simp at h2; omega
  | cons r rs ih =>
    intro n h1 h2
    rw [List.enumFrom]
    by_cases hn : n = i
    · simp only [List.map_cons]
      rw [if_pos hn]
      rfl
    · simp only [List.map_cons]
      rw [if_neg hn]
      show poolCollect (Except.ok (good (n, r)) :: _) = Except.error e
      unfold poolCollect
      rw [ih (n + 1) (by omega) (by simp at h2 ⊢; omega)]

/-- C5 (counterexample): a worker for the first record (index 0) that raises.
The others succeed, yet the batch result is the propagated exception — not the
concatenation of the remaining records' results that the claim requires: the
collection loop around `executor.map` has no try/except, so one record's
failure aborts the whole batch. -/
def c5failWorker :
    Nat × List (String × PyValue) → Except Nat (List (List (String × PyValue))) :=
  fun x =>
    if x.1 = 0 then Except.error 0
    else Except.ok (process_single_row x.1 x.2 30 250)

/-- The two-record batch used to exercise `c5failWorker`. -/
def c5rows : List (List (String × PyValue)) :=
  [[("text", PyValue.str ("x".toList))], [("text", PyValue.str ("y".toList))]]

/-- C5 (counterexample), see `c5failWorker`. -/
theorem c5_counterexample :
    process_in_parallel_exc c5failWorker c5rows = Except.error 0 ∧
    process_in_parallel_exc c5failWorker c5rows
      ≠ Except.ok (process_single_row 1 [("text", PyValue.str ("y".toList))]
          30 250) := by
  refine ⟨rfl, ?_⟩
  intro h
  rw [show process_in_parallel_exc c5failWorker c5rows = Except.error 0
    from rfl] at h
  exact Except.noConfusion h

/-- C5 (amended): `process_in_parallel` does not isolate per-record failures.
If fragmenting any single in-range record raises while all others succeed, the
exception propagates out of the result-collection loop and the whole batch
aborts with that exception; no record of the batch contributes any result. -/
theorem c5_amended {E : Type} (e : E)
    (good : Nat × List (String × PyValue) → List (List (String × PyValue)))
    (rows : List (List (String × PyValue))) (i : Nat) (hi : i < rows.length) :
    process_in_parallel_exc
      (fun x => if x.1 = i then Except.error e else Except.ok (good x)) rows
      = Except.error e := by
  unfold process_in_parallel_exc
  exact poolCollect_enumFrom_error e good i rows 0 (Nat.zero_le i)
    (by simpa using hi)

/-- C5 (witness). -/
theorem c5_witness :
    process_in_parallel_exc
      (fun x => if x.1 = 1 then Except.error 7
        else Except.ok [x.2])
      [[("a", PyValue.int 1)], [("b", PyValue.int 2)], [("c", PyValue.int 3)]]
      = Except.error 7 :=
  c5_amended 7 (fun x => [x.2])
    [[("a", PyValue.int 1)], [("b", PyValue.int 2)], [("c", PyValue.int 3)]]
    1 (by decide)

/-- C6 (counterexample): for the single over-long sentence with an inter-phrase
space, text `aab， ccd，` with `min_length = 3`, `max_length = 8`, the greedy
merge concatenates the two *stripped* phrase parts into `aab，ccd，`, which no
longer occurs in the original text: `str.find` returns `-1`, the stored
offsets are `fragment_start = -1`, `fragment_end = 7`, and the slice of the
original text over that range is empty — not the fragment's text. -/
theorem c6_counterexample :
    List.lookup "fragment_start"
        ((process_single_row 0 [("text", PyValue.str ("aab， ccd，".toList))]
          3 8).headD [])
      = some (PyValue.int (-1)) ∧
    List.lookup "text"
        ((process_single_row 0 [("text", PyValue.str ("aab， ccd，".toList))]
          3 8).headD [])
      = some (PyValue.str ("aab，ccd，".toList)) ∧
    List.lookup "fragment_end"
        ((process_single_row 0 [("text", PyValue.str ("aab， ccd，".toList))]
          3 8).headD [])
      = some (PyValue.int 7) ∧
    pySlice ("aab， ccd，".toList) (-1) 7 ≠ "aab，ccd，".toList := by
  refine ⟨rfl, rfl, rfl, ?_⟩
  decide

/-- C6 (amended): every record produced by `process_single_row` stores
`fragment_start = find(original, fragment)` and
`fragment_end = fragment_start + len(fragment)`; *provided* the first-occurrence
search succeeds (the fragment occurs verbatim in the original text), the slice
of the original text from `fragment_start` to `fragment_end` equals the
fragment's text.  When the search fails (a merged fragment whose inter-phrase
whitespace was stripped), `fragment_start = -1` and the slice does not recover
the fragment. -/
theorem c6_amended (idx minL maxL : Nat) (row : List (String × PyValue))
    (original : List Char)
    (htext : (List.lookup "text" row).getD (PyValue.str [])
      = PyValue.str original)
    (rec : List (String × PyValue))
    (hrec : rec ∈ process_single_row idx row minL maxL) :
    ∃ frag, frag ∈ split_text_to_sentences original minL maxL ∧
      List.lookup "text" rec = some (PyValue.str frag) ∧
      List.lookup "fragment_start" rec
        = some (PyValue.int (pyFind original frag)) ∧
      List.lookup "fragment_end" rec
        = some (PyValue.int (pyFind original frag + frag.length)) ∧
      (0 ≤ pyFind original frag →
        pySlice original (pyFind original frag)
          (pyFind original frag + frag.length) = frag) := by
  unfold process_single_row at hrec
  split at hrec
  · rename_i s heq
    rw [htext] at heq
    injection heq with hso
    subst hso
    split at hrec
    · simp at hrec
    · rcases List.mem_map.mp hrec with ⟨p, hp, rfl⟩
      refine ⟨p.2, snd_mem_of_mem_enumFrom _ 0 p hp, ?_, ?_, ?_,
        fun h => pyFind_slice original p.2 h⟩
      · exact pyDictMerge_lookup_update _ _ _ _ rfl
      · exact pyDictMerge_lookup_update _ _ _ _ rfl
      · exact pyDictMerge_lookup_update _ _ _ _ rfl
  · rename_i hne
    exact absurd htext (by intro hcontra; exact hne original hcontra)

/-- The single record produced by `process_single_row` on the one-sentence text
used as the C6 witness input. -/
def c6rec : List (String × PyValue) :=
  [("text", PyValue.str ("ab。".toList)),
   ("original_index", PyValue.int 0),
   ("fragment_index", PyValue.int 0),
   ("original_text_length", PyValue.int 3),
   ("fragment_length", PyValue.int 3),
   ("source_type", PyValue.str ("sentence_fragment".toList)),
   ("fragment_start", PyValue.int 0),
   ("fragment_end", PyValue.int 3)]

/-- C6 (witness). -/
theorem c6_witness :
    ∃ frag, frag ∈ split_text_to_sentences ("ab。".toList) 1 10 ∧
      List.lookup "text" c6rec = some (PyValue.str frag) ∧
      List.lookup "fragment_start" c6rec
        = some (PyValue.int (pyFind ("ab。".toList) frag)) ∧
      List.lookup "fragment_end" c6rec
        = some (PyValue.int (pyFind ("ab。".toList) frag + frag.length)) ∧
      (0 ≤ pyFind ("ab。".toList) frag →
        pySlice ("ab。".toList) (pyFind ("ab。".toList) frag)
          (pyFind ("ab。".toList) frag + frag.length) = frag) :=
  c6_amended 0 1 10 [("text", PyValue.str ("ab。".toList))] ("ab。".toList)
    rfl c6rec (by decide)

/-- C7: the worker pool's output is the in-order concatenation of the
per-record fragment-record lists — record results are never interleaved and
follow the original record order (the embedding of `executor.map`, which
yields results in submission order regardless of completion order) — and every
output record's `original_index` field equals its source record's position in
the batch. -/
theorem c7_order (rows : List (List (String × PyValue))) (minL maxL : Nat) :
    process_in_parallel rows minL maxL
      = (rows.enum.map (fun p => process_single_row p.1 p.2 minL maxL)).flatten
    ∧ ∀ p ∈ rows.enum, ∀ rec ∈ process_single_row p.1 p.2 minL maxL,
        List.lookup "original_index" rec = some (PyValue.int p.1) := by
  refine ⟨rfl, ?_⟩
  intro p hp rec hrec
  unfold process_single_row at hrec
  split at hrec
  · split at hrec
    · simp at hrec
    · rcases List.mem_map.mp hrec with ⟨q, hq, rfl⟩
      exact pyDictMerge_lookup_update _ _ _ _ rfl
  · simp at hrec

/-- The single record produced by `process_single_row` on the one-record batch
used as the C7 witness input. -/
def c7rec : List (String × PyValue) :=
  [("text", PyValue.str ("cd。".toList)),
   ("original_index", PyValue.int 0),
   ("fragment_index", PyValue.int 0),
   ("original_text_length", PyValue.int 3),
   ("fragment_length", PyValue.int 3),
   ("source_type", PyValue.str ("sentence_fragment".toList)),
   ("fragment_start", PyValue.int 0),
   ("fragment_end", PyValue.int 3)]

/-- C7 (witness). -/
theorem c7_witness :
    List.lookup "original_index" c7rec = some (PyValue.int 0) :=
  (c7_order [[("text", PyValue.str ("cd。".toList))]] 1 10).2
    (0, [("text", PyValue.str ("cd。".toList))]) (by decide)
    c7rec (by decide)

/-- C8: a record whose text field is missing, non-string, or shorter than
`min_length` after stripping makes `process_single_row` return the empty list
— a silent no-op, not an error. -/
theorem c8_invalid_text (idx minL maxL : Nat) (row : List (String × PyValue)) :
    (List.lookup "text" row = none →
      process_single_row idx row minL maxL = []) ∧
    (∀ t, List.lookup "text" row = some t → (∀ s, t ≠ PyValue.str s) →
      process_single_row idx row minL maxL = []) ∧
    (∀ s, List.lookup "text" row = some (PyValue.str s) →
      (pyStrip s).length < minL →
      process_single_row idx row minL maxL = []) := by
  refine ⟨?_, ?_, ?_⟩
  · intro h
    unfold process_single_row
    rw [h]
    show (if (pyStrip ([] : List Char)).length < minL then []
      else (split_text_to_sentences [] minL maxL).enum.map
        (fun p => pyDictMerge row (fragMeta idx p.1 [] p.2))) = []
    by_cases hm : (pyStrip ([] : List Char)).length < minL
    · rw [if_pos hm]
    · rw [if_neg hm]
      rfl
  · intro t ht hns
    unfold process_single_row
    rw [ht]
    cases t with
    | str s => exact absurd rfl (hns s)
    | int n => rfl
    | other m => rfl
  · intro s hs hlen
    unfold process_single_row
    rw [hs]
    show (if (pyStrip s).length < minL then []
      else (split_text_to_sentences s minL maxL).enum.map
        (fun p => pyDictMerge row (fragMeta idx p.1 s p.2))) = []
    rw [if_pos hlen]

/-- C8 (witness). -/
theorem c8_witness :
    process_single_row 0 [("text", PyValue.str ("ab".toList))] 30 250 = [] :=
  (c8_invalid_text 0 30 250 [("text", PyValue.str ("ab".toList))]).2.2
    ("ab".toList) rfl (by decide)

/-- C9: every field of the input record other than the text field and the
written metadata fields reads back unchanged from every fragment record
produced by `process_single_row`. -/
theorem c9_frame (idx minL maxL : Nat) (row rec : List (String × PyValue))
    (k : String) (hrec : rec ∈ process_single_row idx row minL maxL)
    (hk : k ∉ fragMetaKeys) :
    List.lookup k rec = List.lookup k row := by
  unfold process_single_row at hrec
  split at hrec
  · split at hrec
    · simp at hrec
    · rcases List.mem_map.mp hrec with ⟨q, hq, rfl⟩
      refine pyDictMerge_lookup_frame row _ k ?_
      refine lookup_eq_none_of_keys k _ ?_
      exact hk
  · simp at hrec

/-- The input row used as the C9 witness, carrying an extra `id` field. -/
def c9row : List (String × PyValue) :=
  [("id", PyValue.int 7), ("text", PyValue.str ("ef。".toList))]

/-- The single record produced by `process_single_row` on `c9row`. -/
def c9rec : List (String × PyValue) :=
  [("id", PyValue.int 7),
   ("text", PyValue.str ("ef。".toList)),
   ("original_index", PyValue.int 0),
   ("fragment_index", PyValue.int 0),
   ("original_text_length", PyValue.int 3),
   ("fragment_length", PyValue.int 3),
   ("source_type", PyValue.str ("sentence_fragment".toList)),
   ("fragment_start", PyValue.int 0),
   ("fragment_end", PyValue.int 3)]

/-- C9 (witness). -/
theorem c9_witness : List.lookup "id" c9rec = List.lookup "id" c9row :=
  c9_frame 0 1 10 c9row c9rec "id" (by decide) (by decide)
